import Mathlib

/-!
Verification development for the project-scaffolding tool in `project.py`.

The development shallowly embeds the program's core logic:

* Python strings are embedded as `List Char`; `str.replace` and `str.count`
  become `pyReplace` and `pyCount`, translated from CPython's leftmost,
  non-overlapping scan semantics.
* The filesystem is embedded as a tree (`FSEntry` / `FSList`); directory walks
  return lists of `(absolute path components, is_dir)` items.
* `_list_recursive` (project.py lines 48-72) is embedded by `stepEntry`,
  `loopList` and `list_recursive`.  The Python function threads one mutable
  accumulator list through sibling recursive calls and extends it with its own
  return value; the embedding threads the accumulator's value and resolves the
  object-identity question at each `accumulator.extend(...)` site:
  when the callee is entered with `maxdepth == 0` it returns a fresh
  one-element list and the caller's list is untouched; when the callee is
  entered with an empty accumulator, `accumulator = accumulator or []` rebinds
  to a fresh list, so again the caller's object is untouched and the returned
  value is appended; when the callee is entered with a non-empty accumulator
  the callee mutates the caller's object in place and returns the very same
  object, so `accumulator.extend(ret)` extends the list with itself, doubling
  its current contents.
* The classifier (`list`, lines 130-168), `_list_subtemplate_folders`
  (lines 75-83), `_patch_project_name` (lines 87-94), `_init_project`
  (lines 40-45), `_validate_project_template` (lines 97-103) and `clone`
  (lines 106-127) are embedded definition by definition below.
-/

namespace Proj

/-- Character-list form of a string literal. -/
def chs (s : String) : List Char := s.toList

/-! ## Python string primitives -/

/-- Boolean prefix test on character lists. -/
def isPre : List Char → List Char → Bool
  | [], _ => true
  | _ :: _, [] => false
  | a :: as, b :: bs => a == b && isPre as bs

/-- Worker for `str.replace`: scans left to right; a positive skip counter
consumes the remaining characters of a match that was just replaced.  This is
CPython's leftmost non-overlapping replacement. -/
def replAux (pat rep : List Char) : Nat → List Char → List Char
  | 0, [] => []
  | 0, c :: cs =>
    if isPre pat (c :: cs) then rep ++ replAux pat rep (pat.length - 1) cs
    else c :: replAux pat rep 0 cs
  | _ + 1, [] => []
  | k + 1, _ :: cs => replAux pat rep k cs

/-- Worker for `str.count`: counts leftmost non-overlapping occurrences. -/
def countAux (pat : List Char) : Nat → List Char → Nat
  | 0, [] => 0
  | 0, c :: cs =>
    if isPre pat (c :: cs) then countAux pat (pat.length - 1) cs + 1
    else countAux pat 0 cs
  | _ + 1, [] => 0
  | k + 1, _ :: cs => countAux pat k cs

/-- Python `s.replace(pat, rep)`.  For an empty pattern CPython inserts the
replacement at every character boundary. -/
def pyReplace (s pat rep : List Char) : List Char :=
  if pat.isEmpty then rep ++ s.flatMap (fun c => c :: rep) else replAux pat rep 0 s

/-- Python `s.count(pat)` (non-overlapping; `len(s) + 1` for an empty pattern). -/
def pyCount (s pat : List Char) : Nat :=
  if pat.isEmpty then s.length + 1 else countAux pat 0 s

/-! ## The sentinel substitution (project.py lines 14, 40-45, 87-94) -/

/-- Embedding of `_PROJECT_NAME_SENTINEL` (line 14), the literal string
consisting of a left brace, a percent sign, the letters PROJECT_NAME, a
percent sign and a right brace. -/
def PROJECT_NAME_SENTINEL : List Char := chs "\x7b%PROJECT_NAME%\x7d"

/-- Content transformation performed by `_patch_project_name` (lines 87-94):
the whole text is read and every occurrence of the sentinel is replaced by
the given name. -/
def patch_project_name (content name : List Char) : List Char :=
  pyReplace content PROJECT_NAME_SENTINEL name

/-- Name normalization performed by `_init_project` (line 45):
`project_name.replace("-", "_")`. -/
def normalize_project_name (projectName : List Char) : List Char :=
  pyReplace projectName ['-'] ['_']

/-- Per-file content effect of `_init_project` (lines 40-45): each file of the
walked destination tree has its content patched with the normalized name. -/
def init_project_content (content projectName : List Char) : List Char :=
  patch_project_name content (normalize_project_name projectName)

/-! ## Filesystem model and the tree walker (project.py lines 48-72) -/

mutual
/-- A filesystem entry: a regular file or a directory with its children. -/
inductive FSEntry where
  | file (name : List Char)
  | dir (name : List Char) (children : FSList)
/-- Children of a directory, in `iterdir` order. -/
inductive FSList where
  | nil
  | cons (head : FSEntry) (tail : FSList)
end

/-- Absolute path, as its list of components (the source resolves the current
directory, so every path handled by the program is absolute). -/
abbrev FPath := List (List Char)

/-- An element of the walker's result list: the entry's absolute path
components paired with whether the entry is a directory. -/
abbrev Item := FPath × Bool

/-- Test of `child.name.startswith(".")` (line 61). -/
def hid : List Char → Bool
  | [] => false
  | c :: _ => c == '.'

def entryName : FSEntry → List Char
  | .file n => n
  | .dir n _ => n

def entryIsDir : FSEntry → Bool
  | .file _ => false
  | .dir _ _ => true

mutual
/-- One iteration of the loop of `_list_recursive` (lines 63-70), processing a
single non-hidden child taken from the filtered `children` list.  State is the
current value `W` of the shared accumulator list and the current value `d` of
the local `maxdepth` variable (which the loop mutates in place, so the
returned `d` is used by later siblings).  For a directory child the recursive
call `_list_recursive(child, accumulator=accumulator, maxdepth=maxdepth)` is
inlined: entered with depth 0 it returns the fresh singleton `[child]`
(line 58-59) and the caller's list is untouched; entered with an empty
accumulator it rebinds `accumulator or []` to a fresh list (line 55), so the
caller's list is again untouched and `extend` appends the returned value;
entered with a non-empty accumulator it mutates the caller's list in place and
returns that same object, so `accumulator.extend(...)` extends the list with
itself, doubling its current contents. -/
def stepEntry (p : FPath) (e : FSEntry) (W : List Item) (d : Int) : List Item × Int :=
  match e with
  | .file n =>
    if hid n then (W, d) else (W ++ [(p ++ [n], false)], d)
  | .dir n cs' =>
    if hid n then (W, d)
    else
      let d' := if d > 0 then d - 1 else d
      if d' = 0 then (W ++ [(p ++ [n], true)], d')
      else
        let ret := (loopList (p ++ [n]) cs' W d').1
        ((if W.isEmpty then ret else ret ++ ret), d')

/-- The loop of `_list_recursive` over the (unfiltered) children, skipping the
hidden ones exactly as the comprehension on line 61 does. -/
def loopList (p : FPath) (cs : FSList) (W : List Item) (d : Int) : List Item × Int :=
  match cs with
  | .nil => (W, d)
  | .cons e rest =>
    let r := stepEntry p e W d
    loopList p rest r.1 r.2
end

/-- Top-level `_list_recursive(parent, maxdepth=d)` (lines 48-72) on the
directory with absolute path `p` and children `cs`: with `maxdepth == 0` the
parent itself is the sole result (lines 57-59); otherwise the accumulator
starts fresh (`None or []`, line 55) and the loop's final value is returned. -/
def list_recursive (p : FPath) (cs : FSList) (d : Int) : List Item :=
  if d = 0 then [(p, true)] else (loopList p cs [] d).1

/-- Last path component (`os.path.basename` of an absolute path). -/
def pathLast (q : FPath) : List Char := q.getLastD []

/-! ## Auxiliary measures and the depth-policy mirrors -/

mutual
/-- Number of directory nodes in an entry (all depths). -/
def entryDirCount : FSEntry → Nat
  | .file _ => 0
  | .dir _ cs => 1 + dirCountL cs
/-- Number of directory nodes in a forest (all depths). -/
def dirCountL : FSList → Nat
  | .nil => 0
  | .cons e rest => entryDirCount e + dirCountL rest
end

mutual
/-- Depth of the deepest directory below an entry (the entry's own directory
node counts as depth 1). -/
def entryMaxDepth : FSEntry → Nat
  | .file _ => 0
  | .dir _ cs => 1 + listMaxDepth cs
/-- Depth of the deepest directory in a forest. -/
def listMaxDepth : FSList → Nat
  | .nil => 0
  | .cons e rest => max (entryMaxDepth e) (listMaxDepth rest)
end

/-- Value of the loop's `maxdepth` variable after `k` decrement steps, each
applied only while the value is positive, starting from `d0`. -/
def decAfter (d0 : Int) (k : Nat) : Int :=
  if d0 > 0 then (if d0 - k ≤ 0 then 0 else d0 - k) else d0

/-- Depth policy of the claim: every subdirectory of a level entered with
depth `d0` is recursed into with `d0` decremented by exactly one,
independently of earlier siblings. -/
def polIndep (d0 : Int) (_ : Nat) : Int := if d0 > 0 then d0 - 1 else d0

/-- Depth policy of the code: the `k`-th (0-based) non-hidden directory child
of a level entered with depth `d0` is recursed into with the shared counter's
value after `k + 1` decrement-while-positive steps. -/
def polShared (d0 : Int) (k : Nat) : Int := decAfter d0 (k + 1)

mutual
/-- Mirror of `stepEntry` in which the depth passed to a directory child is
given by an explicit policy of the entry depth `d0` of the level and the index
`k` of the directory child within the level, instead of being threaded. -/
def mirrorStep (pol : Int → Nat → Int) (p : FPath) (e : FSEntry) (W : List Item)
    (d0 : Int) (k : Nat) : List Item × Nat :=
  match e with
  | .file n =>
    if hid n then (W, k) else (W ++ [(p ++ [n], false)], k)
  | .dir n cs' =>
    if hid n then (W, k)
    else
      let d' := pol d0 k
      if d' = 0 then (W ++ [(p ++ [n], true)], k + 1)
      else
        let ret := mirrorLoop pol (p ++ [n]) cs' W d' 0
        ((if W.isEmpty then ret else ret ++ ret), k + 1)

/-- Mirror of `loopList` for an explicit depth policy. -/
def mirrorLoop (pol : Int → Nat → Int) (p : FPath) (cs : FSList) (W : List Item)
    (d0 : Int) (k : Nat) : List Item :=
  match cs with
  | .nil => W
  | .cons e rest =>
    let r := mirrorStep pol p e W d0 k
    mirrorLoop pol p rest r.1 d0 r.2
end

/-- Mirror of `list_recursive` for an explicit depth policy. -/
def mirrorWalk (pol : Int → Nat → Int) (p : FPath) (cs : FSList) (d : Int) : List Item :=
  if d = 0 then [(p, true)] else mirrorLoop pol p cs [] d 0

/-! ## Depth-one characterization (used by the classifier) -/

/-- Non-hidden immediate children of a directory, as walker items, in
`iterdir` order. -/
def visibleChildItems (p : FPath) : FSList → List Item
  | .nil => []
  | .cons e rest =>
    if hid (entryName e) then visibleChildItems p rest
    else (p ++ [entryName e], entryIsDir e) :: visibleChildItems p rest

/-- Names of all immediate children, in `iterdir` order. -/
def childNames : FSList → List (List Char)
  | .nil => []
  | .cons e rest => entryName e :: childNames rest

/-! ## Files are listed at any level the walker enters -/

/-- Boolean test: the forest has an immediate file child with the given
name. -/
def hasFileChild (n : List Char) : FSList → Bool
  | .nil => false
  | .cons (.file m) rest => m == n || hasFileChild n rest
  | .cons (.dir _ _) rest => hasFileChild n rest

/-! ## Template classifier (project.py lines 130-168) -/

/-- String form of an absolute path, as `str(Path)` produces it: a slash
before each component. -/
def pathStr : FPath → List Char
  | [] => []
  | n :: rest => ('/' :: n) ++ pathStr rest

/-- Python `str.lower`. -/
def lowerStr : List Char → List Char := List.map Char.toLower

def readmeChars : List Char := chs "readme"

/-- The test on line 153: `str(file).lower()[:6] == "readme"`.  Note that it
inspects the string form of the whole (absolute) path, not the file name. -/
def readmePathTest (it : Item) : Bool := (lowerStr (pathStr it.1)).take 6 == readmeChars

/-- `set(_list_recursive(template_folder, maxdepth=1))` (line 147); with
distinct child names the depth-1 walk has no duplicates, so the set is the
list of items. -/
def template_folder_children (p : FPath) (cs : FSList) : List Item :=
  list_recursive p cs 1

/-- Line 148: the children that are files. -/
def template_folder_files (p : FPath) (cs : FSList) : List Item :=
  (template_folder_children p cs).filter (fun it => !it.2)

/-- Line 153: the files whose lowercased path string does not start with
"readme". -/
def noreadme_files (p : FPath) (cs : FSList) : List Item :=
  (template_folder_files p cs).filter (fun it => !(readmePathTest it))

/-- Lines 154-157: a template folder is emitted under its bare name (a leaf
template) exactly when `noreadme_files` is non-empty; otherwise it is treated
as a group. -/
def is_leaf_template (p : FPath) (cs : FSList) : Bool :=
  (noreadme_files p cs).length != 0

/-- Classifier step as the claim states it: the files whose lowercased NAME
does not start with "readme" (written from the spec's words, to be compared
with `noreadme_files`). -/
def spec_noreadme_files (p : FPath) (cs : FSList) : List Item :=
  (template_folder_files p cs).filter
    (fun it => !(isPre readmeChars (lowerStr (pathLast it.1))))

/-- Condition of `_list_subtemplate_folders` (line 80): the parent directory
has no immediate file children at all (`iterdir` is unfiltered here, so hidden
files count too). -/
def hasNoImmediateFiles : FSList → Bool
  | .nil => true
  | .cons (.file _) _ => false
  | .cons (.dir _ _) rest => hasNoImmediateFiles rest

/-- `_list_subtemplate_folders` (lines 75-83): every depth-1 child is added
when the parent has no immediate files; otherwise nothing is. -/
def list_subtemplate_folders (p : FPath) (cs : FSList) : List Item :=
  if hasNoImmediateFiles cs then list_recursive p cs 1 else []

/-- Lines 139-141: the immediate subdirectories of the language folder
(unfiltered `iterdir` with an `is_dir` check), as name-children pairs. -/
def dirChildren : FSList → List (List Char × FSList)
  | .nil => []
  | .cons (.file _) rest => dirChildren rest
  | .cons (.dir n cs') rest => (n, cs') :: dirChildren rest

/-- Output lines of the `list` subcommand (lines 143-166): for each group
template folder a line per subtemplate, then a line with the bare name of
each leaf template folder. -/
def list_command (root : FPath) (rootChildren : FSList) : List (List Char) :=
  (dirChildren rootChildren).flatMap (fun nc =>
    if is_leaf_template (root ++ [nc.1]) nc.2 then []
    else (list_subtemplate_folders (root ++ [nc.1]) nc.2).map
      (fun it => nc.1 ++ '/' :: pathLast it.1)) ++
  ((dirChildren rootChildren).filter
      (fun nc => is_leaf_template (root ++ [nc.1]) nc.2)).map (fun nc => nc.1)

/-! ## Clone operation (project.py lines 97-127) -/

/-- Split a CLI template argument on slashes, as the `/` operator of
`pathlib` treats a string containing separators. -/
def splitSlash (s : List Char) : List (List Char) :=
  s.foldr (fun c acc => if c = '/' then [] :: acc else (c :: acc.headD []) :: acc.tail) [[]]

/-- Look up a directory entry by name. -/
def findEntry : FSList → List Char → Option FSEntry
  | .nil, _ => none
  | .cons e rest, n => if entryName e == n then some e else findEntry rest n

/-- Resolve a relative component path in a file tree. -/
def resolvePath : FSList → List (List Char) → Option FSEntry
  | _, [] => none
  | cs, [n] => findEntry cs n
  | cs, n :: m :: rest =>
    match findEntry cs n with
    | some (.dir _ cs') => resolvePath cs' (m :: rest)
    | _ => none

/-- `_validate_project_template` (lines 97-103): the path
`cwd / language / template` must exist and be a directory. -/
def validate_project_template (fs : FSList) (language template : List Char) : Bool :=
  match resolvePath fs (language :: splitSlash template) with
  | some (.dir _ _) => true
  | _ => false

/-- Exit code of `clone` (lines 106-127), with the outcome of the external
`git clone` call and of the initialization walk abstracted as oracles: an
unknown template exits 1 before anything else runs; a failed fetch returns 1
before initialization runs; a failed initialization returns 2; otherwise 0. -/
def clone_exit_code (fs : FSList) (language template : List Char)
    (cloneOk initOk : Bool) : Nat :=
  if validate_project_template fs language template = false then 1
  else if cloneOk = false then 1
  else if initOk = false then 2
  else 0

/-! ## Concrete scenario trees -/

/-- Two sibling directories; the second contains a directory containing a
file.  Exhibits the shared sibling decrement of the depth counter. -/
def cexSharedTree : FSList :=
  .cons (.dir (chs "a") .nil)
    (.cons (.dir (chs "b")
      (.cons (.dir (chs "c") (.cons (.file (chs "f")) .nil)) .nil)) .nil)

/-- A file next to the directories of `cexSharedTree`. -/
def fileAndDirsTree : FSList := .cons (.file (chs "g")) cexSharedTree

/-- One directory containing one file. -/
def cexBoundTree : FSList := .cons (.dir (chs "b") (.cons (.file (chs "f")) .nil)) .nil

/-- A template folder containing only a README file. -/
def readmeOnlyTree : FSList := .cons (.file (chs "README.md")) .nil

/-- Template root of the classifier scenario: web/ with two files, cli/ with
two subdirectories. -/
def scenarioTree : FSList :=
  .cons (.dir (chs "web")
      (.cons (.file (chs "main.ext")) (.cons (.file (chs "README.md")) .nil)))
    (.cons (.dir (chs "cli")
      (.cons (.dir (chs "basic") .nil) (.cons (.dir (chs "advanced") .nil) .nil))) .nil)

/-- A template folder with one file and one subdirectory. -/
def demoTemplateTree : FSList :=
  .cons (.file (chs "main.ext")) (.cons (.dir (chs "sub") .nil) .nil)

theorem pyReplace_eq_replAux (s pat rep : List Char) (h : pat ≠ []) :
    pyReplace s pat rep = replAux pat rep 0 s := by
  cases pat with
  | nil => exact absurd rfl h
  | cons a as => rfl

theorem pyCount_eq_countAux (s pat : List Char) (h : pat ≠ []) :
    pyCount s pat = countAux pat 0 s := by
  cases pat with
  | nil => exact absurd rfl h
  | cons a as => rfl

/-! ## Lemmas about the replacement scan -/

theorem isPre_nil (s : List Char) : isPre [] s = true := by cases s <;> rfl

theorem isPre_head {a b : Char} {as bs : List Char} (h : isPre (a :: as) (b :: bs) = true) :
    a = b ∧ isPre as bs = true := by
  simpa [isPre, Bool.and_eq_true, beq_iff_eq] using h

theorem isPre_append (p t : List Char) : isPre p (p ++ t) = true := by
  induction p with
  | nil => exact isPre_nil t
  | cons a as ih => simp [isPre, ih]

theorem replAux_skip (pat rep : List Char) (s : List Char) :
    ∀ k, replAux pat rep k s = replAux pat rep 0 (s.drop k) := by
  induction s with
  | nil => intro k; cases k <;> rfl
  | cons c cs ih =>
    intro k
    cases k with
    | zero => rfl
    | succ j => simpa [replAux] using ih j

theorem countAux_skip (pat : List Char) (s : List Char) :
    ∀ k, countAux pat k s = countAux pat 0 (s.drop k) := by
  induction s with
  | nil => intro k; cases k <;> rfl
  | cons c cs ih =>
    intro k
    cases k with
    | zero => rfl
    | succ j => simpa [countAux] using ih j

theorem replAux_cons (pat rep : List Char) (c : Char) (cs : List Char) :
    replAux pat rep 0 (c :: cs) =
      if isPre pat (c :: cs) then rep ++ replAux pat rep 0 (cs.drop (pat.length - 1))
      else c :: replAux pat rep 0 cs := by
  rw [replAux, replAux_skip]

theorem countAux_cons (pat : List Char) (c : Char) (cs : List Char) :
    countAux pat 0 (c :: cs) =
      if isPre pat (c :: cs) then countAux pat 0 (cs.drop (pat.length - 1)) + 1
      else countAux pat 0 cs := by
  rw [countAux, countAux_skip]

/-- Characters foreign to the pattern can be skipped when counting. -/
theorem countAux_append_disj (pat : List Char) (hp : pat ≠ []) :
    ∀ (r t : List Char), (∀ c ∈ r, c ∉ pat) → countAux pat 0 (r ++ t) = countAux pat 0 t := by
  intro r
  induction r with
  | nil => intro t _; rfl
  | cons c r' ih =>
    intro t h
    rw [List.cons_append, countAux_cons]
    have hpre : isPre pat (c :: (r' ++ t)) = false := by
      cases pat with
      | nil => exact absurd rfl hp
      | cons p0 pat' =>
        by_contra hb
        have := isPre_head (by simpa using hb)
        exact (h c (List.mem_cons_self c r')) (this.1 ▸ List.mem_cons_self p0 pat')
    rw [hpre]
    simp only [Bool.false_eq_true, if_false]
    exact ih t (fun x hx => h x (List.mem_cons_of_mem c hx))

/-- Counting a list at its own front yields one plus the count of the rest. -/
theorem countAux_self_append (rep : List Char) (hr : rep ≠ []) (t : List Char) :
    countAux rep 0 (rep ++ t) = countAux rep 0 t + 1 := by
  cases rep with
  | nil => exact absurd rfl hr
  | cons r0 r' =>
    rw [List.cons_append, countAux_cons,
      if_pos (show isPre (r0 :: r') (r0 :: (r' ++ t)) = true from isPre_append (r0 :: r') t)]
    congr 1
    have hdrop : (r' ++ t).drop ((r0 :: r').length - 1) = t := by
      simp
    rw [hdrop]

/-- A list built only from pattern characters that is a prefix of the
replacement output is already a prefix of the input (the replacement text
shares no character with the pattern). -/
theorem isPre_replAux (pat rep : List Char) (hr : rep ≠ [])
    (hdisj : ∀ c ∈ rep, c ∉ pat) :
    ∀ (s q : List Char), (∀ c ∈ q, c ∈ pat) → isPre q (replAux pat rep 0 s) = true →
      isPre q s = true
  | [], q => fun _ h => by
      cases q with
      | nil => exact isPre_nil _
      | cons q0 q' => simp [replAux, isPre] at h
  | c :: cs, q => fun hq h => by
      rw [replAux_cons] at h
      by_cases hpre : isPre pat (c :: cs) = true
      · rw [if_pos hpre] at h
        cases q with
        | nil => exact isPre_nil _
        | cons q0 q' =>
          cases rep with
          | nil => exact absurd rfl hr
          | cons r0 r'' =>
            have hq0r0 : q0 = r0 := (isPre_head (by simpa using h)).1
            exact absurd (hq q0 (List.mem_cons_self _ _))
              (by rw [hq0r0]; exact hdisj r0 (List.mem_cons_self _ _))
      · rw [if_neg hpre] at h
        cases q with
        | nil => exact isPre_nil _
        | cons q0 q' =>
          obtain ⟨hq0, hq'⟩ := isPre_head h
          have hrec := isPre_replAux pat rep hr hdisj cs q'
            (fun x hx => hq x (List.mem_cons_of_mem _ hx)) hq'
          subst hq0
          simp [isPre, hrec]

/-- After replacement the pattern no longer occurs, provided the replacement
text is non-empty and shares no character with the pattern. -/
theorem countAux_replAux (pat rep : List Char) (hp : pat ≠ []) (hr : rep ≠ [])
    (hdisj : ∀ c ∈ rep, c ∉ pat) :
    ∀ (s : List Char), countAux pat 0 (replAux pat rep 0 s) = 0
  | [] => rfl
  | c :: cs => by
    rw [replAux_cons]
    by_cases hpre : isPre pat (c :: cs) = true
    · rw [if_pos hpre, countAux_append_disj pat hp rep _ hdisj]
      exact countAux_replAux pat rep hp hr hdisj (cs.drop (pat.length - 1))
    · rw [if_neg hpre, countAux_cons]
      have hfalse : isPre pat (c :: replAux pat rep 0 cs) = false := by
        cases pat with
        | nil => exact absurd rfl hp
        | cons p0 pat' =>
          by_contra hb
          obtain ⟨hpc, hptail⟩ := isPre_head (by simpa using hb)
          have hcs : isPre pat' cs = true :=
            isPre_replAux (p0 :: pat') rep hr hdisj cs pat'
              (fun x hx => List.mem_cons_of_mem p0 hx) hptail
          exact hpre (by simp [isPre, hpc, hcs])
      rw [hfalse]
      simp only [Bool.false_eq_true, if_false]
      exact countAux_replAux pat rep hp hr hdisj cs
termination_by s => s.length
decreasing_by
  all_goals simp [List.length_drop]
  all_goals omega

/-- The replacement text occurs in the output exactly as often as the pattern
occurred in the input, provided the replacement text is non-empty, shares no
character with the pattern, and none of its characters occur in the input. -/
theorem countAux_rep_replAux (pat rep : List Char) (hp : pat ≠ []) (hr : rep ≠ [])
    (hdisj : ∀ c ∈ rep, c ∉ pat) :
    ∀ (s : List Char), (∀ c ∈ s, c ∉ rep) →
      countAux rep 0 (replAux pat rep 0 s) = countAux pat 0 s
  | [] => fun _ => rfl
  | c :: cs => fun hs => by
    rw [replAux_cons]
    by_cases hpre : isPre pat (c :: cs) = true
    · rw [if_pos hpre, countAux_self_append rep hr, countAux_cons, if_pos hpre]
      congr 1
      exact countAux_rep_replAux pat rep hp hr hdisj (cs.drop (pat.length - 1))
        (fun x hx => hs x (List.mem_cons_of_mem c (List.drop_subset _ _ hx)))
    · rw [if_neg hpre]
      have h1 : isPre rep (c :: replAux pat rep 0 cs) = false := by
        cases rep with
        | nil => exact absurd rfl hr
        | cons r0 r' =>
          by_contra hb
          have hc : c = r0 := ((isPre_head (by simpa using hb)).1).symm
          exact hs c (List.mem_cons_self _ _) (by rw [hc]; exact List.mem_cons_self r0 r')
      rw [countAux_cons rep, h1]
      simp only [Bool.false_eq_true, if_false]
      rw [countAux_cons pat, if_neg hpre]
      exact countAux_rep_replAux pat rep hp hr hdisj cs
        (fun x hx => hs x (List.mem_cons_of_mem c hx))
termination_by s => s.length
decreasing_by
  all_goals simp [List.length_drop]
  all_goals omega

/-- Replacement is the identity on inputs without any occurrence of the
pattern. -/
theorem replAux_self_of_count_zero (pat rep : List Char) :
    ∀ (s : List Char), countAux pat 0 s = 0 → replAux pat rep 0 s = s
  | [] => fun _ => rfl
  | c :: cs => fun h => by
    rw [countAux_cons] at h
    by_cases hpre : isPre pat (c :: cs) = true
    · rw [if_pos hpre] at h
      omega
    · rw [if_neg hpre] at h
      rw [replAux_cons, if_neg hpre, replAux_self_of_count_zero pat rep cs h]

theorem sentinel_ne_nil : PROJECT_NAME_SENTINEL ≠ [] := by decide

/-- C4, counterexample.  The claim quantifies over every file content and
every project name, but a file whose content already equals the normalized
name refutes it: content "custom_name" contains zero sentinels (N = 0), yet
after initialization with project name "custom-name" it contains one
occurrence of "custom_name", not N = 0. -/
theorem C4_sentinel_round_trip_counterexample :
    pyCount (chs "custom_name") PROJECT_NAME_SENTINEL = 0 ∧
    pyCount (init_project_content (chs "custom_name") (chs "custom-name"))
        (normalize_project_name (chs "custom-name")) ≠
      pyCount (chs "custom_name") PROJECT_NAME_SENTINEL := by
  constructor
  · decide
  · decide

/-- C4, amended.  For every template file and every project name such that the
normalized name is non-empty, shares no character with the sentinel token and
none of its characters occur in the original file content, initialization
leaves zero occurrences of the sentinel and exactly as many occurrences of the
normalized name as the file had sentinel occurrences. -/
theorem C4_sentinel_round_trip_amended (content P : List Char)
    (h1 : normalize_project_name P ≠ [])
    (h2 : ∀ c ∈ normalize_project_name P, c ∉ PROJECT_NAME_SENTINEL)
    (h3 : ∀ c ∈ content, c ∉ normalize_project_name P) :
    pyCount (init_project_content content P) PROJECT_NAME_SENTINEL = 0 ∧
    pyCount (init_project_content content P) (normalize_project_name P) =
      pyCount content PROJECT_NAME_SENTINEL := by
  have hun : init_project_content content P =
      replAux PROJECT_NAME_SENTINEL (normalize_project_name P) 0 content := by
    rw [init_project_content, patch_project_name,
      pyReplace_eq_replAux _ _ _ sentinel_ne_nil]
  constructor
  · rw [hun, pyCount_eq_countAux _ _ sentinel_ne_nil]
    exact countAux_replAux _ _ sentinel_ne_nil h1 h2 content
  · rw [hun, pyCount_eq_countAux _ _ h1, pyCount_eq_countAux _ _ sentinel_ne_nil]
    exact countAux_rep_replAux _ _ sentinel_ne_nil h1 h2 content h3

/-- C4, witness for the amended theorem at a concrete input: content
"abc" ++ sentinel ++ "def" with project name "zig". -/
theorem C4_sentinel_round_trip_witness :
    (normalize_project_name (chs "zig") ≠ [] ∧
      (∀ c ∈ normalize_project_name (chs "zig"), c ∉ PROJECT_NAME_SENTINEL) ∧
      (∀ c ∈ chs "abc" ++ PROJECT_NAME_SENTINEL ++ chs "def",
        c ∉ normalize_project_name (chs "zig"))) ∧
    (pyCount (init_project_content (chs "abc" ++ PROJECT_NAME_SENTINEL ++ chs "def")
        (chs "zig")) PROJECT_NAME_SENTINEL = 0 ∧
      pyCount (init_project_content (chs "abc" ++ PROJECT_NAME_SENTINEL ++ chs "def")
          (chs "zig")) (normalize_project_name (chs "zig")) =
        pyCount (chs "abc" ++ PROJECT_NAME_SENTINEL ++ chs "def") PROJECT_NAME_SENTINEL) :=
  ⟨⟨by decide, by decide, by decide⟩,
    C4_sentinel_round_trip_amended _ _ (by decide) (by decide) (by decide)⟩

/-- C5, counterexample.  The claim quantifies over every project name; a name
that itself contains the sentinel refutes it: patching the sentinel with the
name "x" ++ sentinel once yields "x" ++ sentinel, twice yields
"xx" ++ sentinel. -/
theorem C5_idempotence_counterexample :
    patch_project_name
        (patch_project_name PROJECT_NAME_SENTINEL ('x' :: PROJECT_NAME_SENTINEL))
        ('x' :: PROJECT_NAME_SENTINEL) ≠
      patch_project_name PROJECT_NAME_SENTINEL ('x' :: PROJECT_NAME_SENTINEL) := by
  decide

/-- C5, amended.  The sentinel-replacement step is idempotent on every file
whenever one pass leaves no sentinel occurrence behind (which the spec itself
gives as the reason for idempotence); a name that reintroduces the sentinel is
the only way to violate this. -/
theorem C5_idempotence_amended (content name : List Char)
    (h : pyCount (patch_project_name content name) PROJECT_NAME_SENTINEL = 0) :
    patch_project_name (patch_project_name content name) name =
      patch_project_name content name := by
  rw [pyCount_eq_countAux _ _ sentinel_ne_nil] at h
  rw [patch_project_name, pyReplace_eq_replAux _ _ _ sentinel_ne_nil]
  exact replAux_self_of_count_zero _ _ _ h

/-- C5, witness for the amended theorem: content equal to the sentinel,
name "app". -/
theorem C5_idempotence_witness :
    pyCount (patch_project_name PROJECT_NAME_SENTINEL (chs "app"))
        PROJECT_NAME_SENTINEL = 0 ∧
    patch_project_name (patch_project_name PROJECT_NAME_SENTINEL (chs "app"))
        (chs "app") =
      patch_project_name PROJECT_NAME_SENTINEL (chs "app") :=
  ⟨by decide, C5_idempotence_amended _ _ (by decide)⟩

/-- C8: the Project Initializer replaces every hyphen of the supplied project
name by an underscore before substituting (the normalization is exactly a
character map), and initializing a file containing
name = quoted sentinel with project name "custom-name" writes
name = "custom_name". -/
theorem C8_hyphen_normalization :
    (∀ P : List Char,
      normalize_project_name P = P.map (fun c => if c = '-' then '_' else c)) ∧
    init_project_content (chs "name = \"\x7b%PROJECT_NAME%\x7d\"") (chs "custom-name") =
      chs "name = \"custom_name\"" := by
  constructor
  · intro P
    rw [normalize_project_name, pyReplace_eq_replAux _ _ _ (by decide)]
    induction P with
    | nil => rfl
    | cons c cs ih =>
      rw [replAux_cons]
      by_cases hc : c = '-'
      · subst hc
        simpa [isPre, isPre_nil] using ih
      · have hc2 : ('-' == c) = false := by
          simp only [beq_eq_false_iff_ne, ne_eq]
          exact fun h => hc h.symm
        simp [isPre, hc2, hc, ih]
  · decide

/-! ## Structure lemmas about the walker -/

theorem decAfter_zero (d : Int) : decAfter d 0 = d := by
  simp only [decAfter]
  split_ifs <;> omega

theorem decAfter_step (d0 : Int) (k : Nat) :
    (if decAfter d0 k > 0 then decAfter d0 k - 1 else decAfter d0 k) = decAfter d0 (k + 1) := by
  simp only [decAfter]
  push_cast
  split_ifs <;> omega

mutual
/-- Accumulator contents survive one loop iteration. -/
theorem stepEntry_mono (p : FPath) (e : FSEntry) (W : List Item) (d : Int) (x : Item)
    (h : x ∈ W) : x ∈ (stepEntry p e W d).1 := by
  cases e with
  | file n =>
    simp only [stepEntry]
    split_ifs <;> first
      | exact h
      | exact List.mem_append_left _ h
  | dir n cs' =>
    simp only [stepEntry]
    split_ifs <;>
      first
        | exact h
        | exact List.mem_append_left _ h
        | exact List.mem_append_left _ (loopList_mono _ cs' W _ x h)
        | (rename_i hemp
           rw [List.isEmpty_iff.mp hemp] at h
           exact absurd h (List.not_mem_nil x))

/-- Accumulator contents survive the whole loop. -/
theorem loopList_mono (p : FPath) (cs : FSList) (W : List Item) (d : Int) (x : Item)
    (h : x ∈ W) : x ∈ (loopList p cs W d).1 := by
  cases cs with
  | nil => exact h
  | cons e rest =>
    simp only [loopList]
    exact loopList_mono p rest _ _ x (stepEntry_mono p e W d x h)
end

theorem pathLast_append (p : FPath) (n : List Char) : pathLast (p ++ [n]) = n := by
  simp [pathLast]

mutual
/-- Everything one loop iteration adds beyond the accumulator has a
non-hidden last path component. -/
theorem stepEntry_mem_src (p : FPath) (e : FSEntry) (W : List Item) (d : Int) (x : Item)
    (h : x ∈ (stepEntry p e W d).1) : x ∈ W ∨ hid (pathLast x.1) = false := by
  cases e with
  | file n =>
    simp only [stepEntry] at h
    by_cases hh : hid n = true
    · rw [if_pos hh] at h
      exact Or.inl h
    · rw [if_neg hh] at h
      rcases List.mem_append.mp h with hW | hx
      · exact Or.inl hW
      · right
        have hx' : x = (p ++ [n], false) := by simpa using hx
        rw [hx', pathLast_append]
        exact Bool.eq_false_iff.mpr hh
  | dir n cs' =>
    simp only [stepEntry] at h
    by_cases hh : hid n = true
    · rw [if_pos hh] at h
      exact Or.inl h
    · rw [if_neg hh] at h
      by_cases h0 : (if d > 0 then d - 1 else d) = 0
      · rw [if_pos h0] at h
        rcases List.mem_append.mp h with hW | hx
        · exact Or.inl hW
        · right
          have hx' : x = (p ++ [n], true) := by simpa using hx
          rw [hx', pathLast_append]
          exact Bool.eq_false_iff.mpr hh
      · rw [if_neg h0] at h
        by_cases hemp : W.isEmpty = true
        · rw [if_pos hemp] at h
          exact loopList_mem_src _ cs' W _ x h
        · rw [if_neg hemp] at h
          rcases List.mem_append.mp h with h1 | h1 <;>
            exact loopList_mem_src _ cs' W _ x h1

/-- Everything the loop adds beyond the accumulator has a non-hidden last
path component. -/
theorem loopList_mem_src (p : FPath) (cs : FSList) (W : List Item) (d : Int) (x : Item)
    (h : x ∈ (loopList p cs W d).1) : x ∈ W ∨ hid (pathLast x.1) = false := by
  cases cs with
  | nil => exact Or.inl h
  | cons e rest =>
    simp only [loopList] at h
    rcases loopList_mem_src p rest _ _ x h with h1 | h1
    · exact stepEntry_mem_src p e W d x h1
    · exact Or.inr h1
end

theorem loopList_depth_zero (p : FPath) :
    ∀ (cs : FSList) (W : List Item), loopList p cs W 0 = (W ++ visibleChildItems p cs, 0)
  | .nil, W => by simp [loopList, visibleChildItems]
  | .cons e rest, W => by
    have hstep : stepEntry p e W 0 =
        (W ++ (if hid (entryName e) then [] else [(p ++ [entryName e], entryIsDir e)]), 0) := by
      cases e with
      | file n =>
        by_cases hh : hid n = true <;>
          simp [stepEntry, entryName, entryIsDir, hh]
      | dir n cs' =>
        by_cases hh : hid n = true <;>
          simp [stepEntry, entryName, entryIsDir, hh]
    rw [loopList, hstep]
    rw [loopList_depth_zero p rest _]
    cases hh : hid (entryName e) <;>
      simp [visibleChildItems, hh, List.append_assoc]

theorem loopList_depth_one (p : FPath) :
    ∀ (cs : FSList) (W : List Item), (loopList p cs W 1).1 = W ++ visibleChildItems p cs
  | .nil, W => by simp [loopList, visibleChildItems]
  | .cons e rest, W => by
    cases e with
    | file n =>
      by_cases hh : hid n = true
      · rw [loopList]
        have hstep : stepEntry p (.file n) W 1 = (W, 1) := by simp [stepEntry, hh]
        rw [hstep, loopList_depth_one p rest W]
        simp [visibleChildItems, entryName, hh]
      · rw [loopList]
        have hstep : stepEntry p (.file n) W 1 = (W ++ [(p ++ [n], false)], 1) := by
          simp [stepEntry, hh]
        rw [hstep, loopList_depth_one p rest _]
        simp [visibleChildItems, entryName, entryIsDir, hh, List.append_assoc]
    | dir n cs' =>
      by_cases hh : hid n = true
      · rw [loopList]
        have hstep : stepEntry p (.dir n cs') W 1 = (W, 1) := by simp [stepEntry, hh]
        rw [hstep, loopList_depth_one p rest W]
        simp [visibleChildItems, entryName, hh]
      · rw [loopList]
        have hstep : stepEntry p (.dir n cs') W 1 = (W ++ [(p ++ [n], true)], 0) := by
          simp [stepEntry, hh]
        rw [hstep, loopList_depth_zero p rest _]
        simp [visibleChildItems, entryName, entryIsDir, hh, List.append_assoc]

/-- With depth limit 1 the walker lists exactly the non-hidden immediate
children. -/
theorem list_recursive_depth_one (p : FPath) (cs : FSList) :
    list_recursive p cs 1 = visibleChildItems p cs := by
  rw [list_recursive, if_neg (by decide : ¬((1 : Int) = 0)), loopList_depth_one]
  rfl

theorem visibleChildItems_mem (p : FPath) :
    ∀ (cs : FSList) (x : Item), x ∈ visibleChildItems p cs →
      ∃ n, x.1 = p ++ [n] ∧ n ∈ childNames cs
  | .nil, x => by simp [visibleChildItems]
  | .cons e rest, x => by
    simp only [visibleChildItems]
    by_cases hh : hid (entryName e) = true
    · rw [if_pos hh]
      intro h
      obtain ⟨n, h1, h2⟩ := visibleChildItems_mem p rest x h
      exact ⟨n, h1, List.mem_cons_of_mem _ h2⟩
    · rw [if_neg hh]
      intro h
      rcases List.mem_cons.mp h with hx | hx
      · exact ⟨entryName e, by rw [hx], List.mem_cons_self _ _⟩
      · obtain ⟨n, h1, h2⟩ := visibleChildItems_mem p rest x hx
        exact ⟨n, h1, List.mem_cons_of_mem _ h2⟩

theorem visibleChildItems_nodup (p : FPath) :
    ∀ (cs : FSList), (childNames cs).Nodup → (visibleChildItems p cs).Nodup
  | .nil, _ => by simp [visibleChildItems]
  | .cons e rest, h => by
    rw [childNames, List.nodup_cons] at h
    simp only [visibleChildItems]
    by_cases hh : hid (entryName e) = true
    · rw [if_pos hh]
      exact visibleChildItems_nodup p rest h.2
    · rw [if_neg hh, List.nodup_cons]
      refine ⟨?_, visibleChildItems_nodup p rest h.2⟩
      intro hmem
      obtain ⟨n, h1, h2⟩ := visibleChildItems_mem p rest _ hmem
      have : entryName e = n := by
        have := List.append_cancel_left h1
        simpa using this
      exact h.1 (this ▸ h2)

/-! ## Depth budget: deep enough walks equal unbounded walks -/

theorem stepEntry_snd_nonpos (p : FPath) (e : FSEntry) (W : List Item) (d : Int)
    (h : d ≤ 0) : (stepEntry p e W d).2 = d := by
  cases e with
  | file n => by_cases hh : hid n = true <;> simp [stepEntry, hh]
  | dir n cs' =>
    have hd' : (if d > 0 then d - 1 else d) = d := if_neg (by omega)
    by_cases hh : hid n = true
    · simp [stepEntry, hh]
    · simp only [stepEntry, if_neg hh, hd']
      split_ifs <;> rfl

theorem stepEntry_snd_ge (p : FPath) (e : FSEntry) (W : List Item) (d : Int)
    (h : 0 < d) : d - entryDirCount e ≤ (stepEntry p e W d).2 := by
  cases e with
  | file n =>
    by_cases hh : hid n = true <;> simp [stepEntry, entryDirCount, hh]
  | dir n cs' =>
    have hd' : (if d > 0 then d - 1 else d) = d - 1 := if_pos h
    by_cases hh : hid n = true
    · simp only [stepEntry, if_pos hh, entryDirCount]
      push_cast
      omega
    · simp only [stepEntry, if_neg hh, hd', entryDirCount]
      split_ifs <;> (dsimp only; push_cast; omega)

mutual
/-- When the remaining depth exceeds the number of directory nodes below an
entry, processing the entry behaves as in an unbounded walk. -/
theorem stepEntry_deep (p : FPath) (e : FSEntry) (W : List Item) (d : Int)
    (h : (entryDirCount e : Int) < d) :
    (stepEntry p e W d).1 = (stepEntry p e W (-1)).1 := by
  cases e with
  | file n => by_cases hh : hid n = true <;> simp [stepEntry, hh]
  | dir n cs' =>
    by_cases hh : hid n = true
    · simp [stepEntry, hh]
    · simp only [entryDirCount] at h
      have hd : d > 0 := by push_cast at h; omega
      have e1 : (if d > 0 then d - 1 else d) = d - 1 := if_pos hd
      have e2 : (if (-1 : Int) > 0 then (-1 : Int) - 1 else -1) = -1 := if_neg (by decide)
      simp only [stepEntry, if_neg hh, e1, e2]
      rw [if_neg (show ¬(d - 1 = 0) by push_cast at h; omega),
        if_neg (show ¬((-1 : Int) = 0) by decide)]
      rw [loopList_deep (p ++ [n]) cs' W (d - 1) (by push_cast at h ⊢; omega)]

/-- When the remaining depth exceeds the number of directory nodes in the
forest, the loop behaves as in an unbounded walk. -/
theorem loopList_deep (p : FPath) (cs : FSList) (W : List Item) (d : Int)
    (h : (dirCountL cs : Int) < d) :
    (loopList p cs W d).1 = (loopList p cs W (-1)).1 := by
  cases cs with
  | nil => rfl
  | cons e rest =>
    simp only [dirCountL] at h
    have hd : 0 < d := by push_cast at h; omega
    have hW : (stepEntry p e W d).1 = (stepEntry p e W (-1)).1 :=
      stepEntry_deep p e W d (by push_cast at h ⊢; omega)
    have h2 : (stepEntry p e W (-1)).2 = -1 :=
      stepEntry_snd_nonpos p e W (-1) (by decide)
    have h3 : (dirCountL rest : Int) < (stepEntry p e W d).2 := by
      have := stepEntry_snd_ge p e W d hd
      push_cast at h this ⊢
      omega
    simp only [loopList]
    calc (loopList p rest (stepEntry p e W d).1 (stepEntry p e W d).2).1
        = (loopList p rest (stepEntry p e W d).1 (-1)).1 :=
          loopList_deep p rest _ _ h3
      _ = (loopList p rest (stepEntry p e W (-1)).1 (-1)).1 := by rw [hW]
      _ = (loopList p rest (stepEntry p e W (-1)).1 (stepEntry p e W (-1)).2).1 := by
          rw [h2]
end

/-! ## The walker follows the shared-counter depth policy -/

mutual
/-- One loop iteration, compared with its policy mirror: the accumulator
transforms agree and the threaded depth is the shared counter's value at the
mirror's next index. -/
theorem stepEntry_eq_mirror (p : FPath) (e : FSEntry) (W : List Item) (d0 : Int) (k : Nat) :
    (stepEntry p e W (decAfter d0 k)).1 = (mirrorStep polShared p e W d0 k).1 ∧
    (stepEntry p e W (decAfter d0 k)).2 =
      decAfter d0 ((mirrorStep polShared p e W d0 k).2) := by
  cases e with
  | file n =>
    by_cases hh : hid n = true <;> simp [stepEntry, mirrorStep, hh]
  | dir n cs' =>
    by_cases hh : hid n = true
    · simp [stepEntry, mirrorStep, hh]
    · simp only [stepEntry, mirrorStep, if_neg hh]
      rw [decAfter_step d0 k]
      have hpol : polShared d0 k = decAfter d0 (k + 1) := rfl
      rw [hpol]
      by_cases h0 : decAfter d0 (k + 1) = 0
      · rw [if_pos h0, if_pos h0]
        exact ⟨rfl, rfl⟩
      · rw [if_neg h0, if_neg h0]
        constructor
        · have hret : (loopList (p ++ [n]) cs' W (decAfter d0 (k + 1))).1 =
              mirrorLoop polShared (p ++ [n]) cs' W (decAfter d0 (k + 1)) 0 := by
            have := loopList_eq_mirror (p ++ [n]) cs' W (decAfter d0 (k + 1)) 0
            rwa [decAfter_zero] at this
          rw [hret]
        · rfl

/-- The loop, compared with its policy mirror. -/
theorem loopList_eq_mirror (p : FPath) (cs : FSList) (W : List Item) (d0 : Int) (k : Nat) :
    (loopList p cs W (decAfter d0 k)).1 = mirrorLoop polShared p cs W d0 k := by
  cases cs with
  | nil => rfl
  | cons e rest =>
    simp only [loopList, mirrorLoop]
    obtain ⟨h1, h2⟩ := stepEntry_eq_mirror p e W d0 k
    rw [h1, h2]
    exact loopList_eq_mirror p rest _ d0 _
end

/-- The walker follows the shared-counter depth policy exactly. -/
theorem list_recursive_eq_mirror (p : FPath) (cs : FSList) (d : Int) :
    list_recursive p cs d = mirrorWalk polShared p cs d := by
  rw [list_recursive, mirrorWalk]
  by_cases hd : d = 0
  · rw [if_pos hd, if_pos hd]
  · rw [if_neg hd, if_neg hd]
    have := loopList_eq_mirror p cs [] d 0
    rwa [decAfter_zero] at this

theorem loopList_file_mem (p : FPath) (n : List Char) (hn : hid n = false) :
    ∀ (cs : FSList) (W : List Item) (d : Int), hasFileChild n cs = true →
      (p ++ [n], false) ∈ (loopList p cs W d).1
  | .nil, W, d => by simp [hasFileChild]
  | .cons (.file m) rest, W, d => fun h => by
      rw [hasFileChild, Bool.or_eq_true] at h
      rcases h with h1 | h1
      · have hm : m = n := beq_iff_eq.mp h1
        subst hm
        simp only [loopList]
        have hstep : stepEntry p (.file m) W d = (W ++ [(p ++ [m], false)], d) := by
          simp [stepEntry, hn]
        rw [hstep]
        exact loopList_mono p rest _ _ _
          (List.mem_append_right _ (List.mem_singleton.mpr rfl))
      · simp only [loopList]
        exact loopList_file_mem p n hn rest _ _ h1
  | .cons (.dir m cs') rest, W, d => fun h => by
      rw [hasFileChild] at h
      simp only [loopList]
      exact loopList_file_mem p n hn rest _ _ h

/-! ## The README path test never matches an absolute path -/

theorem readmePathTest_false (it : Item) (h : it.1 ≠ []) : readmePathTest it = false := by
  obtain ⟨a, rest, hrest⟩ : ∃ a rest, it.1 = a :: rest := by
    cases hit : it.1 with
    | nil => exact absurd hit h
    | cons a rest => exact ⟨a, rest, rfl⟩
  rw [readmePathTest, hrest]
  have hps : pathStr (a :: rest) = '/' :: (a ++ pathStr rest) := rfl
  have hlow : lowerStr ('/' :: (a ++ pathStr rest)) =
      '/' :: lowerStr (a ++ pathStr rest) := by
    simp only [lowerStr, List.map_cons]
    rw [show Char.toLower '/' = '/' from by decide]
  rw [hps, hlow, List.take_succ_cons]
  rw [beq_eq_false_iff_ne]
  intro heq
  have h1 := congrArg (fun l => l.headD ' ') heq
  simp [readmeChars, chs] at h1

/-- Because every path the classifier sees is absolute, the README filter on
line 153 never removes anything: the computed non-README files are simply all
files. -/
theorem noreadme_files_eq_files (p : FPath) (cs : FSList) :
    noreadme_files p cs = template_folder_files p cs := by
  rw [noreadme_files]
  apply List.filter_eq_self.mpr
  intro it hmem
  have hmem' : it ∈ template_folder_children p cs := List.mem_of_mem_filter hmem
  rw [template_folder_children, list_recursive_depth_one] at hmem'
  obtain ⟨n, h1, _⟩ := visibleChildItems_mem p cs it hmem'
  have hne : it.1 ≠ [] := by rw [h1]; simp
  simp [readmePathTest_false it hne]

/-! ## Claim theorems for the walker, classifier and clone operation -/

/-- C1, evaluation at the failing input.  A template folder containing only
README.md: the classifier's non-README files are computed from the lowercased
absolute path string, which never starts with "readme", so README.md counts as
a non-README file and the folder is classified as a leaf template; the
name-based computation the claim (and the code's own comment) describe yields
no non-README files. -/
theorem C1_readme_classifier_bug :
    noreadme_files [chs "templates", chs "t"] readmeOnlyTree =
      [([chs "templates", chs "t", chs "README.md"], false)] ∧
    spec_noreadme_files [chs "templates", chs "t"] readmeOnlyTree = [] ∧
    is_leaf_template [chs "templates", chs "t"] readmeOnlyTree = true := by
  refine ⟨by decide, by decide, by decide⟩

/-- C2, counterexample.  On a root whose children are the directories a and b
(in that order), with b containing c containing file f, a depth-2 walk passes
depth 0 (not 1) to b — the loop decremented the shared counter once for a and
once more for b — so the walk returns the entry b itself instead of
descending, refuting the claimed independent decrement. -/
theorem C2_depth_decrement_counterexample :
    ¬(list_recursive [chs "r"] cexSharedTree 2 =
        mirrorWalk polIndep [chs "r"] cexSharedTree 2) := by
  decide

/-- C2, amended.  The recursion into the k-th non-hidden directory child is
performed with the remaining depth decremented once, while positive, for every
directory sibling up to and including that child (the counter is shared across
siblings, not reset per subdirectory); files are always included at any level
the walker actually enters (any nonzero remaining depth). -/
theorem C2_depth_decrement_amended (p : FPath) (cs : FSList) (d : Int) :
    list_recursive p cs d = mirrorWalk polShared p cs d ∧
    (d ≠ 0 → ∀ n, hasFileChild n cs = true → hid n = false →
      (p ++ [n], false) ∈ list_recursive p cs d) := by
  refine ⟨list_recursive_eq_mirror p cs d, ?_⟩
  intro hd n hmem hn
  rw [list_recursive, if_neg hd]
  exact loopList_file_mem p n hn cs [] d hmem

/-- C2, witness for the amended theorem at depth 2 on a tree with a root file
g and the sibling directories of the counterexample. -/
theorem C2_depth_decrement_witness :
    list_recursive [chs "r"] fileAndDirsTree 2 =
      mirrorWalk polShared [chs "r"] fileAndDirsTree 2 ∧
    ([chs "r", chs "g"], false) ∈ list_recursive [chs "r"] fileAndDirsTree 2 :=
  ⟨(C2_depth_decrement_amended [chs "r"] fileAndDirsTree 2).1,
    (C2_depth_decrement_amended [chs "r"] fileAndDirsTree 2).2 (by decide) (chs "g")
      (by decide) (by decide)⟩

/-- C3, counterexample.  A root with one directory b (depth 1, so no
subdirectory is deeper than d = 1) containing file f: the depth-1 walk returns
the directory entry b and no files, while the unbounded walk returns f, so the
file restrictions differ. -/
theorem C3_bounded_walk_counterexample :
    listMaxDepth cexBoundTree ≤ 1 ∧
    (list_recursive [chs "r"] cexBoundTree 1).filter (fun it => !it.2) ≠
      (list_recursive [chs "r"] cexBoundTree (-1)).filter (fun it => !it.2) := by
  refine ⟨by decide, by decide⟩

/-- C3, amended.  Because the walker's depth counter is shared across sibling
directories, the bounded walk agrees with the unbounded walk (even before
restricting to files) as soon as the depth limit exceeds the total number of
directory nodes in the tree, rather than its directory depth. -/
theorem C3_bounded_walk_amended (p : FPath) (cs : FSList) (d : Int)
    (h1 : 1 ≤ d) (h2 : (dirCountL cs : Int) < d) :
    (list_recursive p cs d).filter (fun it => !it.2) =
      (list_recursive p cs (-1)).filter (fun it => !it.2) := by
  rw [list_recursive, list_recursive, if_neg (show ¬(d = 0) by omega),
    if_neg (show ¬((-1 : Int) = 0) by decide), loopList_deep p cs [] d h2]

/-- C3, witness for the amended theorem at depth 2 on the one-directory
tree. -/
theorem C3_bounded_walk_witness :
    ((1 : Int) ≤ 2 ∧ (dirCountL cexBoundTree : Int) < 2) ∧
    (list_recursive [chs "r"] cexBoundTree 2).filter (fun it => !it.2) =
      (list_recursive [chs "r"] cexBoundTree (-1)).filter (fun it => !it.2) :=
  ⟨⟨by decide, by decide⟩, C3_bounded_walk_amended _ cexBoundTree 2 (by decide) (by decide)⟩

/-- C6, counterexample.  With depth limit 0 the walker returns the root
itself as the sole result (line 58-59), so a hidden root appears in the
result. -/
theorem C6_hidden_entries_counterexample :
    (([chs ".hidden"], true) ∈ list_recursive [chs ".hidden"] .nil 0) ∧
    hid (pathLast ([chs ".hidden"] : FPath)) = true := by
  refine ⟨by decide, by decide⟩

/-- C6, amended.  No entry with a hidden name ever appears in a walker
result, except for the root itself, which is returned (as the sole result)
when the depth limit is 0 regardless of its name. -/
theorem C6_hidden_entries_amended (p : FPath) (cs : FSList) (d : Int) (x : Item)
    (h : x ∈ list_recursive p cs d) :
    (x = (p, true) ∧ d = 0) ∨ hid (pathLast x.1) = false := by
  rw [list_recursive] at h
  by_cases hd : d = 0
  · rw [if_pos hd] at h
    exact Or.inl ⟨by simpa using h, hd⟩
  · rw [if_neg hd] at h
    rcases loopList_mem_src p cs [] d x h with h1 | h1
    · exact absurd h1 (List.not_mem_nil x)
    · exact Or.inr h1

/-- C6, witness for the amended theorem: the file f of an unbounded walk has
a non-hidden name. -/
theorem C6_hidden_entries_witness :
    (([chs "a", chs "f"], false) = (([chs "a"] : FPath), true) ∧ (-1 : Int) = 0) ∨
      hid (pathLast ([chs "a", chs "f"] : FPath)) = false :=
  C6_hidden_entries_amended [chs "a"] (.cons (.file (chs "f")) .nil) (-1)
    ([chs "a", chs "f"], false) (by decide)

/-- C7: on the Template Root containing web/ (files main.ext and README.md)
and cli/ (subdirectories basic/ and advanced/, no files), the `list` output
consists exactly of the entries web, cli/basic and cli/advanced. -/
theorem C7_classifier_scenario :
    List.Perm (list_command [chs "py3"] scenarioTree)
      [chs "web", chs "cli/basic", chs "cli/advanced"] := by
  decide

/-- C9: the clone operation returns 0 exactly on full success, 1 exactly when
the template does not resolve to an existing directory or the external clone
fails (whichever stage is reached first), and 2 exactly when validation and
fetch succeed but initialization fails; the stages are tried strictly in this
order. -/
theorem C9_clone_exit_codes (fs : FSList) (lang tmpl : List Char) (cloneOk initOk : Bool) :
    (clone_exit_code fs lang tmpl cloneOk initOk = 0 ↔
      validate_project_template fs lang tmpl = true ∧ cloneOk = true ∧ initOk = true) ∧
    (clone_exit_code fs lang tmpl cloneOk initOk = 1 ↔
      validate_project_template fs lang tmpl = false ∨
        (validate_project_template fs lang tmpl = true ∧ cloneOk = false)) ∧
    (clone_exit_code fs lang tmpl cloneOk initOk = 2 ↔
      validate_project_template fs lang tmpl = true ∧ cloneOk = true ∧ initOk = false) := by
  cases hv : validate_project_template fs lang tmpl <;> cases cloneOk <;> cases initOk <;>
    simp [clone_exit_code, hv]

/-- C10: the depth-1 walk returns exactly the non-hidden immediate children
of the parent (files and directories), in order, and — provided the
directory's child names are distinct, as they are on a real filesystem — each
occurs exactly once. -/
theorem C10_depth_one_children (p : FPath) (cs : FSList) :
    list_recursive p cs 1 = visibleChildItems p cs ∧
    ((childNames cs).Nodup → (list_recursive p cs 1).Nodup) := by
  refine ⟨list_recursive_depth_one p cs, ?_⟩
  intro h
  rw [list_recursive_depth_one p cs]
  exact visibleChildItems_nodup p cs h

/-- C10, witness: a folder with one file and one subdirectory. -/
theorem C10_depth_one_children_witness :
    (childNames demoTemplateTree).Nodup ∧
      (list_recursive [chs "t"] demoTemplateTree 1).Nodup :=
  ⟨by decide, (C10_depth_one_children [chs "t"] demoTemplateTree).2 (by decide)⟩

end Proj

